import Mathlib

/-!
# A verification model of the `taskgraph` library

`taskgraph` is a parallel task-graph executor with persistent result
memoization.  The package's core module (`taskgraph/Task.py`) is not part of
this source tree (only its test suite and `setup.py` are), so the executor,
the fingerprint engine, the file-stat probe and the executed-task store are
modelled here from the specification, and the user callables exercised by the
test suite (`tests/test_task.py`) are translated from that test file.

The model is sequential and deterministic: one worker repeatedly picks the
highest-priority ready task and finalizes it, which matches the spec's
single-worker (`n_workers = 0`) and synchronous (`n_workers = -1`)
configurations and its delayed-start scheduling discipline.  Cryptographic
digests are modelled as injective embeddings: a fingerprint is the tuple of
the digested material itself rather than a fixed-width hash of it.
-/

namespace TaskGraph

/-! ## Argument trees

Modelled from the spec: an argument value is "scalar, sequence, or mapping,
nested arbitrarily; may contain path strings" (§3, §4.1).  Scalars are
strings and integers; sequences and mappings are given by mutually inductive
list-like types so that all recursion below is structural. -/

mutual

inductive ArgValue : Type where
  | str : String → ArgValue
  | num : Int → ArgValue
  | seq : ArgList → ArgValue
  | map : ArgMap → ArgValue
  deriving DecidableEq

inductive ArgList : Type where
  | nil : ArgList
  | cons : ArgValue → ArgList → ArgList
  deriving DecidableEq

inductive ArgMap : Type where
  | nil : ArgMap
  | cons : String → ArgValue → ArgMap → ArgMap
  deriving DecidableEq

end

/-! ## File system model

A filesystem is a finite association from path strings to entries; an entry
is a regular file with a size and a whole-second mtime, or a directory with
an mtime (the spec's probe reports size 0 for directories, §4.1). -/

inductive FSEntry : Type where
  | file : (size : Nat) → (mtime : Nat) → FSEntry
  | dir : (mtime : Nat) → FSEntry
  deriving DecidableEq

abbrev FileSystem := List (String × FSEntry)

/-- Look up the entry stored at a path (`None` when the path does not exist). -/
def FileSystem.stat (fs : FileSystem) (p : String) : Option FSEntry :=
  match fs with
  | [] => none
  | (q, e) :: rest => if q = p then some e else FileSystem.stat rest p

/-- Create or overwrite a regular file. -/
def FileSystem.write (fs : FileSystem) (p : String) (size mtime : Nat) :
    FileSystem :=
  match fs with
  | [] => [(p, FSEntry.file size mtime)]
  | (q, e) :: rest =>
    if q = p then (p, FSEntry.file size mtime) :: rest
    else (q, e) :: FileSystem.write rest p size mtime

/-- Append `n` bytes to a file, creating it when absent (`open(path, 'a')`). -/
def FileSystem.append (fs : FileSystem) (p : String) (n mtime : Nat) :
    FileSystem :=
  match fs.stat p with
  | some (FSEntry.file sz _) => fs.write p (sz + n) mtime
  | _ => fs.write p n mtime

/-! ## File Stat Probe

Modelled from the spec (§4.1): the probe "walks the value recursively.  For
every leaf string, tests whether it names an existing filesystem entry.  If
it does and is not in ignore-paths, emits `(canonical_path, size, mtime)`
(size = 0 for directories).  When `include_directories` is false,
directories are skipped entirely.  Non-existent paths are ignored silently."
Output order is deterministic: containers are visited in insertion order and
mappings by sorted key, which the model obtains by canonicalizing the value
(sorting every mapping's keys) before the walk.  Canonical paths are
modelled as the path strings themselves. -/

/-- One emitted stat record for a leaf path: `(canonical_path, size, mtime)`. -/
abbrev StatRecord := String × Nat × Nat

/-- The stat record emitted for one leaf string, if any: existing regular
files yield `(path, size, mtime)`; existing directories yield
`(path, 0, mtime)` only when `includeDirectories` is set; ignored and
non-existent paths yield nothing. -/
def statLeaf (fs : FileSystem) (ignoreList : List String)
    (includeDirectories : Bool) (s : String) : Option StatRecord :=
  if s ∈ ignoreList then none
  else
    match fs.stat s with
    | some (FSEntry.file size mtime) => some (s, size, mtime)
    | some (FSEntry.dir mtime) =>
      if includeDirectories then some (s, 0, mtime) else none
    | none => none

/-- Lexicographic comparison of character lists by code point, defined
structurally so that it computes by kernel reduction. -/
def charListLeB : List Char → List Char → Bool
  | [], _ => true
  | _ :: _, [] => false
  | a :: as, b :: bs =>
    if a.toNat < b.toNat then true
    else if b.toNat < a.toNat then false
    else charListLeB as bs

/-- The total order on path strings used for canonical ordering. -/
def pathLe (s t : String) : Prop := charListLeB s.data t.data = true

instance : DecidableRel pathLe := fun s t =>
  inferInstanceAs (Decidable (charListLeB s.data t.data = true))

/-- Insert one keyed entry into a key-sorted mapping. -/
def insertByKey (k : String) (v : ArgValue) : ArgMap → ArgMap
  | ArgMap.nil => ArgMap.cons k v ArgMap.nil
  | ArgMap.cons k' v' rest =>
    if pathLe k k' then ArgMap.cons k v (ArgMap.cons k' v' rest)
    else ArgMap.cons k' v' (insertByKey k v rest)

/-- Sort a mapping's entries by key (insertion sort). -/
def sortByKey : ArgMap → ArgMap
  | ArgMap.nil => ArgMap.nil
  | ArgMap.cons k v rest => insertByKey k v (sortByKey rest)

mutual

/-- Canonicalize an argument value: every mapping's entries are put in
sorted-key order, so a subsequent in-order walk visits mappings by sorted
key as the spec requires. -/
def canonValue : ArgValue → ArgValue
  | ArgValue.str s => ArgValue.str s
  | ArgValue.num n => ArgValue.num n
  | ArgValue.seq l => ArgValue.seq (canonList l)
  | ArgValue.map m => ArgValue.map (sortByKey (canonMap m))

def canonList : ArgList → ArgList
  | ArgList.nil => ArgList.nil
  | ArgList.cons v rest => ArgList.cons (canonValue v) (canonList rest)

def canonMap : ArgMap → ArgMap
  | ArgMap.nil => ArgMap.nil
  | ArgMap.cons k v rest => ArgMap.cons k (canonValue v) (canonMap rest)

end

mutual

/-- Walk a canonical value in order, emitting the stat record of each leaf
string that `statLeaf` accepts. -/
def statsValue (fs : FileSystem) (ignoreList : List String)
    (includeDirectories : Bool) : ArgValue → List StatRecord
  | ArgValue.str s =>
    match statLeaf fs ignoreList includeDirectories s with
    | some r => [r]
    | none => []
  | ArgValue.num _ => []
  | ArgValue.seq l => statsList fs ignoreList includeDirectories l
  | ArgValue.map m => statsMap fs ignoreList includeDirectories m

def statsList (fs : FileSystem) (ignoreList : List String)
    (includeDirectories : Bool) : ArgList → List StatRecord
  | ArgList.nil => []
  | ArgList.cons v rest =>
    statsValue fs ignoreList includeDirectories v ++
      statsList fs ignoreList includeDirectories rest

def statsMap (fs : FileSystem) (ignoreList : List String)
    (includeDirectories : Bool) : ArgMap → List StatRecord
  | ArgMap.nil => []
  | ArgMap.cons _ v rest =>
    statsValue fs ignoreList includeDirectories v ++
      statsMap fs ignoreList includeDirectories rest

end

/-- Modelled from the spec (§4.1): `_get_file_stats` over an arbitrary
argument value, an ignore list, and the `include_directories` flag. -/
def _get_file_stats (fs : FileSystem) (baseValue : ArgValue)
    (ignoreList : List String) (includeDirectories : Bool) :
    List StatRecord :=
  statsValue fs ignoreList includeDirectories (canonValue baseValue)

/-! ## Fingerprint Engine

Modelled from the spec (§4.2): the fingerprint is computed over the callable
identity, the `(args, kwargs)` tree with every existing-path leaf replaced by
its `(path, size, mtime)` tuple (directories excluded, ignore-paths
honored), the declared output paths sorted to canonical order, and the
sorted ignore-paths.  Declared output paths may be produced by the task
itself (§3 I5, §8 scenario 1 require the fingerprint to be stable across a
run that creates them), so they are honored as ignore-paths during stat
substitution.  The cryptographic digest is modelled as an injective
embedding: the fingerprint is the digested material itself. -/

mutual

/-- Replace every leaf string that names an existing regular file not in the
ignore list by its `(path, size, mtime)` tuple, encoded as a three-element
sequence.  Directories and non-existent paths are left as plain strings. -/
def substStatsValue (fs : FileSystem) (ignoreList : List String) :
    ArgValue → ArgValue
  | ArgValue.str s =>
    match statLeaf fs ignoreList false s with
    | some (p, size, mtime) =>
      ArgValue.seq (ArgList.cons (ArgValue.str p)
        (ArgList.cons (ArgValue.num (Int.ofNat size))
          (ArgList.cons (ArgValue.num (Int.ofNat mtime)) ArgList.nil)))
    | none => ArgValue.str s
  | ArgValue.num n => ArgValue.num n
  | ArgValue.seq l => ArgValue.seq (substStatsList fs ignoreList l)
  | ArgValue.map m => ArgValue.map (substStatsMap fs ignoreList m)

def substStatsList (fs : FileSystem) (ignoreList : List String) :
    ArgList → ArgList
  | ArgList.nil => ArgList.nil
  | ArgList.cons v rest =>
    ArgList.cons (substStatsValue fs ignoreList v)
      (substStatsList fs ignoreList rest)

def substStatsMap (fs : FileSystem) (ignoreList : List String) :
    ArgMap → ArgMap
  | ArgMap.nil => ArgMap.nil
  | ArgMap.cons k v rest =>
    ArgMap.cons k (substStatsValue fs ignoreList v)
      (substStatsMap fs ignoreList rest)

end

/-- Sort a list of path strings to canonical order (insertion sort). -/
def sortStrings (l : List String) : List String :=
  List.insertionSort pathLe l

/-- A task as submitted to the graph.  `id` is assigned monotonically within
the graph; `deps` holds the ids of earlier-submitted dependencies. -/
structure Task where
  id : Nat
  funcName : String
  args : ArgList
  kwargs : ArgMap
  targetPathList : List String
  ignorePathList : List String
  priority : Int
  deps : List Nat
  deriving DecidableEq

/-- A fingerprint: the digested material of spec §4.2, as an injective
tuple — callable identity, stat-substituted argument tree, canonically
sorted declared outputs, sorted ignore-paths. -/
structure Fingerprint where
  funcId : String
  argTree : ArgValue
  targets : List String
  ignore : List String
  deriving DecidableEq

/-- The combined `(args, kwargs)` argument tree of a task. -/
def Task.argTree (t : Task) : ArgValue :=
  ArgValue.seq (ArgList.cons (ArgValue.seq t.args)
    (ArgList.cons (ArgValue.map t.kwargs) ArgList.nil))

/-- Modelled from the spec (§4.2): compute a task's fingerprint against the
current filesystem.  Computed lazily, at the moment the task is picked up
Ready (I3). -/
def fingerprintOf (fs : FileSystem) (t : Task) : Fingerprint :=
  { funcId := t.funcName
    argTree := substStatsValue fs (t.ignorePathList ++ t.targetPathList)
      (canonValue t.argTree)
    targets := sortStrings t.targetPathList
    ignore := sortStrings t.ignorePathList }

/-! ## Executed-Task Store

Modelled from the spec (§4.3): a persistent mapping from fingerprints to the
recorded `(path, size, mtime)` stats of each declared output at the time of
successful execution. -/

abbrev Store := List (Fingerprint × List StatRecord)

/-- `lookup(fingerprint) → optional record`. -/
def Store.lookup : Store → Fingerprint → Option (List StatRecord)
  | [], _ => none
  | (fp, recs) :: rest, fp' =>
    if fp = fp' then some recs else Store.lookup rest fp'

/-- Every recorded output currently exists as a regular file with matching
size and mtime. -/
def outputsVerified (fs : FileSystem) (recs : List StatRecord) : Bool :=
  recs.all fun r =>
    match fs.stat r.1 with
    | some (FSEntry.file sz mt) => sz = r.2.1 && mt = r.2.2
    | _ => false

/-- Modelled from the spec (§4.3): a Precomputed decision requires that the
fingerprint is present in the Store and every recorded output currently
exists with matching size and mtime. -/
def storeHit (store : Store) (fs : FileSystem) (fp : Fingerprint) : Bool :=
  match store.lookup fp with
  | some recs => outputsVerified fs recs
  | none => false

/-! ## Observable world and the user callables

The world is everything outside the scheduler that a run can observe: the
filesystem, the persistent store, a clock producing fresh mtimes, a shared
in-memory list (the test suite's `result_list`), and the trace of callable
invocations (ids, in execution order). The callables themselves are
translated from `tests/test_task.py`. -/

structure World where
  fs : FileSystem
  store : Store
  clock : Nat
  sideLog : List Int
  invoked : List Nat
  deriving DecidableEq

/-- Positional lookup in an argument list. -/
def ArgList.get? : ArgList → Nat → Option ArgValue
  | ArgList.nil, _ => none
  | ArgList.cons v _, 0 => some v
  | ArgList.cons _ rest, Nat.succ n => ArgList.get? rest n

/-- Keyword lookup in an argument mapping. -/
def ArgMap.find? : ArgMap → String → Option ArgValue
  | ArgMap.nil, _ => none
  | ArgMap.cons k v rest, k' => if k = k' then some v else ArgMap.find? rest k'

/-- Python-style parameter binding: positional argument at `pos` when
present, else the keyword argument named `name`. -/
def bindParam (args : ArgList) (kwargs : ArgMap) (pos : Nat) (name : String) :
    Option ArgValue :=
  match args.get? pos with
  | some v => some v
  | none => kwargs.find? name

def asStr : Option ArgValue → Option String
  | some (ArgValue.str s) => some s
  | _ => none

def asNum : Option ArgValue → Option Int
  | some (ArgValue.num n) => some n
  | _ => none

/-- Interpreter for the user callables of `tests/test_task.py`, by callable
identity.  Returns `none` when the callable raises.  File sizes model
content lengths: `_create_list_on_disk` writes a file of size `length`;
append-mode writers add the written length to the current size.  Every write
stamps the current clock as mtime.  Unknown callables are opaque no-ops. -/
def applyFunc (name : String) (args : ArgList) (kwargs : ArgMap)
    (fs : FileSystem) (clock : Nat) (sideLog : List Int) :
    Option (FileSystem × List Int) :=
  if name = "_create_list_on_disk" then
    match asNum (bindParam args kwargs 1 "length"),
        asStr (bindParam args kwargs 2 "target_path") with
    | some length, some target =>
      some (fs.write target length.toNat clock, sideLog)
    | _, _ => none
  else if name = "_sum_lists_from_disk" then
    match asStr (bindParam args kwargs 0 "list_a_path"),
        asStr (bindParam args kwargs 1 "list_b_path"),
        asStr (bindParam args kwargs 2 "target_path") with
    | some a, some b, some target =>
      match fs.stat a, fs.stat b with
      | some (FSEntry.file sa _), some (FSEntry.file _ _) =>
        some (fs.write target sa clock, sideLog)
      | _, _ => none
    | _, _, _ => none
  else if name = "_create_two_files_on_disk" then
    match asStr (bindParam args kwargs 0 "value"),
        asStr (bindParam args kwargs 1 "target_a_path"),
        asStr (bindParam args kwargs 2 "target_b_path") with
    | some value, some a, some b =>
      some ((fs.append a value.length clock).append b value.length clock,
        sideLog)
    | _, _, _ => none
  else if name = "_merge_and_append_files" then
    match asStr (bindParam args kwargs 0 "base_a_path"),
        asStr (bindParam args kwargs 1 "base_b_path"),
        asStr (bindParam args kwargs 2 "target_path") with
    | some a, some b, some target =>
      match fs.stat a, fs.stat b with
      | some (FSEntry.file sa _), some (FSEntry.file sb _) =>
        some (fs.append target (sa + sb) clock, sideLog)
      | _, _ => none
    | _, _, _ => none
  else if name = "_div_by_zero" then
    none
  else if name = "append_val" then
    match asNum (bindParam args kwargs 0 "val") with
    | some v => some (fs, sideLog ++ [v])
    | none => none
  else
    some (fs, sideLog)

/-! ## Sequential executor

Modelled from the spec (§4.4–§4.7): a single worker repeatedly picks, among
the tasks whose dependencies have all reached a terminal state, the one with
the highest priority (ties broken by submission order), and finalizes it:
failure propagation, within-graph duplicate reuse (I4), persistent
memoization (I5), or execution with output verification. -/

/-- Terminal task states.  `Submitted`, `Ready` and `Running` are transient
in the sequential model: `none` in the state table stands for a
not-yet-terminal task. -/
inductive TaskState : Type where
  | complete : TaskState
  | precomputed : TaskState
  | failed : TaskState
  deriving DecidableEq

/-- The in-graph duplicate-claim map (§4.7): fingerprint to the outcome of
the task that claimed it in this run. -/
abbrev ClaimMap := List (Fingerprint × TaskState)

def lookupClaim : ClaimMap → Fingerprint → Option TaskState
  | [], _ => none
  | (fp, s) :: rest, fp' => if fp = fp' then some s else lookupClaim rest fp'

/-- The full state of one graph run. -/
structure RunState where
  world : World
  claims : ClaimMap
  states : List (Option TaskState)
  deriving DecidableEq

/-- Terminal state of task `i`, or `none` while not terminal. -/
def stOf (states : List (Option TaskState)) (i : Nat) : Option TaskState :=
  match states.get? i with
  | some s => s
  | none => none

def dummyTask : Task :=
  { id := 0, funcName := "", args := ArgList.nil, kwargs := ArgMap.nil,
    targetPathList := [], ignorePathList := [], priority := 0, deps := [] }

def taskAt (tasks : List Task) (i : Nat) : Task := (tasks.get? i).getD dummyTask

/-- A task is ready when it is not yet terminal and every dependency is. -/
def isReadyAt (tasks : List Task) (states : List (Option TaskState))
    (i : Nat) : Bool :=
  (stOf states i).isNone &&
    (taskAt tasks i).deps.all fun d => (stOf states d).isSome

def readyIds (tasks : List Task) (states : List (Option TaskState)) :
    List Nat :=
  (List.range tasks.length).filter (isReadyAt tasks states)

/-- `i` is scheduled strictly before `j`: higher priority first, submission
order among equal priorities (§4.5). -/
def schedBefore (tasks : List Task) (i j : Nat) : Bool :=
  (taskAt tasks i).priority > (taskAt tasks j).priority ||
    ((taskAt tasks i).priority = (taskAt tasks j).priority && i < j)

/-- The scheduled task among the ready ones: maximal priority, minimal id. -/
def pickBest (tasks : List Task) : List Nat → Option Nat
  | [] => none
  | i :: rest =>
    match pickBest tasks rest with
    | none => some i
    | some j => if schedBefore tasks j i then some j else some i

/-- Every declared target exists as a regular file. -/
def allTargetsExist (fs : FileSystem) (ps : List String) : Bool :=
  ps.all fun p =>
    match fs.stat p with
    | some (FSEntry.file _ _) => true
    | _ => false

/-- The stats recorded into the Store for the declared outputs. -/
def targetStats (fs : FileSystem) (ps : List String) : List StatRecord :=
  ps.filterMap fun p =>
    match fs.stat p with
    | some (FSEntry.file sz mt) => some (p, sz, mt)
    | _ => none

/-- Finalize one ready task `i` (the worker loop body, §4.4/§4.6):
1. a Failed dependency propagates Failure without executing (I6);
2. a fingerprint already claimed within this run inherits the claimant's
   outcome without executing (I4);
3. a Store hit with verified outputs marks the task Precomputed without
   executing (I5);
4. otherwise the callable runs; success with all declared outputs present
   is Complete and records the output stats into the Store, while a raise
   or a missing declared output is Failed. -/
def finalizeTask (tasks : List Task) (rs : RunState) (i : Nat) : RunState :=
  if (taskAt tasks i).deps.any fun d =>
      stOf rs.states d = some TaskState.failed then
    { rs with states := rs.states.set i (some TaskState.failed) }
  else
    match lookupClaim rs.claims (fingerprintOf rs.world.fs (taskAt tasks i)) with
    | some outcome => { rs with states := rs.states.set i (some outcome) }
    | none =>
      if storeHit rs.world.store rs.world.fs
          (fingerprintOf rs.world.fs (taskAt tasks i)) then
        { rs with states := rs.states.set i (some TaskState.precomputed) }
      else
        match applyFunc (taskAt tasks i).funcName (taskAt tasks i).args
            (taskAt tasks i).kwargs rs.world.fs rs.world.clock
            rs.world.sideLog with
        | none =>
          { world := { rs.world with
              invoked := rs.world.invoked ++ [i]
              clock := rs.world.clock + 1 }
            claims := rs.claims ++
              [(fingerprintOf rs.world.fs (taskAt tasks i), TaskState.failed)]
            states := rs.states.set i (some TaskState.failed) }
        | some (fs2, log2) =>
          if allTargetsExist fs2 (taskAt tasks i).targetPathList then
            { world := { rs.world with
                fs := fs2
                sideLog := log2
                clock := rs.world.clock + 1
                invoked := rs.world.invoked ++ [i]
                store := rs.world.store ++
                  [(fingerprintOf rs.world.fs (taskAt tasks i),
                    targetStats fs2 (taskAt tasks i).targetPathList)] }
              claims := rs.claims ++
                [(fingerprintOf rs.world.fs (taskAt tasks i),
                  TaskState.complete)]
              states := rs.states.set i (some TaskState.complete) }
          else
            { world := { rs.world with
                fs := fs2
                sideLog := log2
                clock := rs.world.clock + 1
                invoked := rs.world.invoked ++ [i] }
              claims := rs.claims ++
                [(fingerprintOf rs.world.fs (taskAt tasks i),
                  TaskState.failed)]
              states := rs.states.set i (some TaskState.failed) }

/-- One scheduler step: finalize the scheduled ready task, or stop when no
task is ready. -/
def stepRun (tasks : List Task) (rs : RunState) : Option RunState :=
  match pickBest tasks (readyIds tasks rs.states) with
  | none => none
  | some i => some (finalizeTask tasks rs i)

def runLoop (tasks : List Task) : Nat → RunState → RunState
  | 0, rs => rs
  | Nat.succ n, rs =>
    match stepRun tasks rs with
    | none => rs
    | some rs2 => runLoop tasks n rs2

def initState (tasks : List Task) (w : World) : RunState :=
  { world := w, claims := [], states := List.replicate tasks.length none }

/-- Run a whole graph: every step finalizes one task, so `tasks.length`
steps of fuel suffice. -/
def runGraph (tasks : List Task) (w : World) : RunState :=
  runLoop tasks tasks.length (initState tasks w)

/-! ## Graph Coordinator surface -/

inductive TgError : Type where
  | illegalState : String → TgError
  | graphFailure : List Nat → TgError
  deriving DecidableEq

structure Graph where
  tasks : List Task
  closed : Bool
  delayedStart : Bool
  deriving DecidableEq

def newGraph (delayedStart : Bool) : Graph :=
  { tasks := [], closed := false, delayedStart := delayedStart }

/-- Build the Task Record of one submission. -/
def mkTask (i : Nat) (funcName : String) (args : ArgList) (kwargs : ArgMap)
    (targetPathList ignorePathList : List String) (priority : Int)
    (deps : List Nat) : Task :=
  ⟨i, funcName, args, kwargs, targetPathList, ignorePathList, priority, deps⟩

/-- Modelled from the spec (§4.7): `add_task` fails with IllegalState when
the graph is closed (and registers nothing); otherwise it registers a new
Task Record with the next id and returns it. -/
def addTask (g : Graph) (funcName : String) (args : ArgList)
    (kwargs : ArgMap) (targetPathList ignorePathList : List String)
    (priority : Int) (deps : List Nat) : Except TgError Nat × Graph :=
  if g.closed then
    (Except.error (TgError.illegalState
      "add_task called on a closed TaskGraph"), g)
  else
    (Except.ok g.tasks.length,
      { g with tasks := g.tasks ++ [mkTask g.tasks.length funcName args
        kwargs targetPathList ignorePathList priority deps] })

/-- Modelled from the spec (§4.7): `close()` marks the graph closed. -/
def Graph.close (g : Graph) : Graph := { g with closed := true }

/-- Modelled from the spec (§4.7): graph `join()` runs everything to a
terminal state and raises GraphFailure, carrying the failed task ids, when
any task Failed. -/
def joinGraph (g : Graph) (w : World) : Except TgError RunState :=
  let rs := runGraph g.tasks w
  let failedIds := (List.range g.tasks.length).filter fun i =>
    stOf rs.states i = some TaskState.failed
  if failedIds.isEmpty then Except.ok rs
  else Except.error (TgError.graphFailure failedIds)

/-- Modelled from the spec (§4.7, §6): `join()` on an individual Task Record
raises IllegalState while the graph is in delayed-start mode and not yet
closed; otherwise it waits for the run and returns the task's terminal
state. -/
def taskJoin (g : Graph) (tid : Nat) (w : World) : Except TgError TaskState :=
  if g.delayedStart && !g.closed then
    Except.error (TgError.illegalState
      "Task joined even though taskgraph has delayed start mode and close has not been invoked")
  else
    match stOf (runGraph g.tasks w).states tid with
    | some s => Except.ok s
    | none => Except.error (TgError.illegalState "task not terminal")

/-! ## Encapsulated task ops

Modelled from the spec (§4.2, §9): an encapsulated op is a stateful callable
whose derived identity (`__name__`) is the class name together with a digest
of the class body (source/bytecode) and of the constructor arguments.
Digests are modelled injectively: the identity carries the digested material
itself. -/

/-- A class definition as it exists at some moment in a session: its name
and its body.  Redefining a class with a different body yields a different
`OpClass` value. -/
structure OpClass where
  className : String
  body : String
  deriving DecidableEq

/-- An instance of an encapsulated op class, remembering the constructor
arguments it was built with. -/
structure EncapsulatedTaskOp where
  cls : OpClass
  ctorArgs : ArgList
  deriving DecidableEq

/-- The derived identity `__name__` of an encapsulated op: the class name
plus the (injectively modelled) digest of the class body and constructor
arguments. -/
def opName (op : EncapsulatedTaskOp) : String × String × ArgList :=
  (op.cls.className, op.cls.body, op.ctorArgs)

/-! ## Task equality

Modelled from the spec and `test_task_equality`: `==` on Task Records
compares the submitted work — callable identity, argument tree, and
canonically ordered declared outputs and ignore-paths — not the submission
id. -/

def Task.taskEq (a b : Task) : Prop :=
  a.funcName = b.funcName ∧ a.args = b.args ∧ a.kwargs = b.kwargs ∧
    sortStrings a.targetPathList = sortStrings b.targetPathList ∧
    sortStrings a.ignorePathList = sortStrings b.ignorePathList

/-! ## Leaf strings of an argument tree -/

mutual

/-- The leaf strings of an argument value, in visit order (mapping keys are
ordering data, not probed leaves). -/
def leafStringsValue : ArgValue → List String
  | ArgValue.str s => [s]
  | ArgValue.num _ => []
  | ArgValue.seq l => leafStringsList l
  | ArgValue.map m => leafStringsMap m

def leafStringsList : ArgList → List String
  | ArgList.nil => []
  | ArgList.cons v rest => leafStringsValue v ++ leafStringsList rest

def leafStringsMap : ArgMap → List String
  | ArgMap.nil => []
  | ArgMap.cons _ v rest => leafStringsValue v ++ leafStringsMap rest

end

/-! ## Concrete scenarios

The workspaces, tasks and graphs of the end-to-end scenarios of spec §8 and
`tests/test_task.py`, translated from the test file. -/

/-- An empty workspace world: empty filesystem and store, clock at 0. -/
def emptyWorld : World :=
  { fs := [], store := [], clock := 0, sideLog := [], invoked := [] }

/-- `test_precomputed_task`: one task writing a 1000-element list of 5 to
`1000.dat` via the `target_path` keyword. -/
def singleListTask : Task :=
  { id := 0, funcName := "_create_list_on_disk"
    args := ArgList.cons (ArgValue.num 5)
      (ArgList.cons (ArgValue.num 1000) ArgList.nil)
    kwargs := ArgMap.cons "target_path" (ArgValue.str "/ws/1000.dat")
      ArgMap.nil
    targetPathList := ["/ws/1000.dat"], ignorePathList := []
    priority := 0, deps := [] }

/-- `test_task_equality`: the same submission as `singleListTask` but with
`value + 1` in its args. -/
def singleListTaskBumped : Task :=
  { singleListTask with
    args := ArgList.cons (ArgValue.num 6)
      (ArgList.cons (ArgValue.num 1000) ArgList.nil) }

/-- The first run of the `test_precomputed_task` scenario, on an empty
workspace. -/
def precomputedRun1 : RunState := runGraph [singleListTask] emptyWorld

/-- The second, fresh graph of `test_precomputed_task`: the identical
submission over the workspace left by the first run, at a later clock. -/
def precomputedWorld2 : World :=
  { fs := precomputedRun1.world.fs, store := precomputedRun1.world.store,
    clock := 100, sideLog := [], invoked := [] }

def precomputedRun2 : RunState := runGraph [singleListTask] precomputedWorld2

/-- `test_broken_task_chain`: `_div_by_zero` and a dependent list-writing
task with a declared output. -/
def brokenChainTasks : List Task :=
  [ { id := 0, funcName := "_div_by_zero", args := ArgList.nil
      kwargs := ArgMap.nil, targetPathList := [], ignorePathList := []
      priority := 0, deps := [] },
    { singleListTask with id := 1, deps := [0] } ]

def brokenChainRun : RunState := runGraph brokenChainTasks emptyWorld

def brokenChainGraph : Graph :=
  { tasks := brokenChainTasks, closed := true, delayedStart := false }

/-- `test_target_path_order` / `test_task_hash_when_ready`: a task that
appends "word" to both `a.txt` and `b.txt`, declaring its two outputs in the
given order. -/
def createTwoFilesTask (targets : List String) (i : Nat) : Task :=
  { id := i, funcName := "_create_two_files_on_disk"
    args := ArgList.cons (ArgValue.str "word")
      (ArgList.cons (ArgValue.str "/ws/a.txt")
        (ArgList.cons (ArgValue.str "/ws/b.txt") ArgList.nil))
    kwargs := ArgMap.nil, targetPathList := targets, ignorePathList := []
    priority := 0, deps := [] }

/-- `test_target_path_order`: identical submissions whose declared outputs
are listed in opposite orders. -/
def targetOrderTasks : List Task :=
  [ createTwoFilesTask ["/ws/a.txt", "/ws/b.txt"] 0,
    createTwoFilesTask ["/ws/b.txt", "/ws/a.txt"] 1 ]

def targetOrderRun : RunState := runGraph targetOrderTasks emptyWorld

/-- `test_task_hash_when_ready`: a merge task appending the contents of
`a.txt` and `b.txt` to `merged.txt`, depending on the file-creating task. -/
def mergeTask (i : Nat) : Task :=
  { id := i, funcName := "_merge_and_append_files"
    args := ArgList.cons (ArgValue.str "/ws/a.txt")
      (ArgList.cons (ArgValue.str "/ws/b.txt")
        (ArgList.cons (ArgValue.str "/ws/merged.txt") ArgList.nil))
    kwargs := ArgMap.nil, targetPathList := ["/ws/merged.txt"]
    ignorePathList := [], priority := 0, deps := [0] }

/-- `test_task_hash_when_ready`: the file-creating task and two identical
merge tasks; the second merge must reuse the first's outcome. -/
def hashWhenReadyTasks : List Task :=
  [ createTwoFilesTask ["/ws/a.txt", "/ws/b.txt"] 0, mergeTask 1, mergeTask 2 ]

def hashWhenReadyRun : RunState := runGraph hashWhenReadyTasks emptyWorld

/-- `test_delayed_execution`: ten tasks appending `i` to the shared list
with `priority := i`, all Ready together when the delayed-start graph is
closed. -/
def delayedTasks : List Task :=
  (List.range 10).map fun i =>
    { id := i, funcName := "append_val"
      args := ArgList.cons (ArgValue.num (Int.ofNat i)) ArgList.nil
      kwargs := ArgMap.nil, targetPathList := [], ignorePathList := []
      priority := Int.ofNat i, deps := [] }

def delayedRun : RunState := runGraph delayedTasks emptyWorld

/-- `test_get_file_stats`: a workspace with a directory and a file inside
it. -/
def testDirFs : FileSystem :=
  [("/ws/test_dir", FSEntry.dir 3), ("/ws/test_dir/test_file.txt", FSEntry.file 1 4)]

/-- `test_get_file_stats`: the probed value
`['foo', test_dir, test_file, 10, {'a': {'b': test_file}},
{'a': {'b': test_dir, 'foo': 9}}]`. -/
def testDirValue : ArgValue :=
  ArgValue.seq (ArgList.cons (ArgValue.str "foo")
    (ArgList.cons (ArgValue.str "/ws/test_dir")
      (ArgList.cons (ArgValue.str "/ws/test_dir/test_file.txt")
        (ArgList.cons (ArgValue.num 10)
          (ArgList.cons (ArgValue.map (ArgMap.cons "a"
            (ArgValue.map (ArgMap.cons "b"
              (ArgValue.str "/ws/test_dir/test_file.txt") ArgMap.nil))
            ArgMap.nil))
            (ArgList.cons (ArgValue.map (ArgMap.cons "a"
              (ArgValue.map (ArgMap.cons "b" (ArgValue.str "/ws/test_dir")
                (ArgMap.cons "foo" (ArgValue.num 9) ArgMap.nil)))
              ArgMap.nil)) ArgList.nil))))))

/-- `test_join_delayed_execution_error`: a delayed-start graph holding one
`append_val` task, not yet closed. -/
def joinDelayedGraph : Graph :=
  { tasks := [{ id := 0, funcName := "append_val"
                args := ArgList.cons (ArgValue.num 1) ArgList.nil
                kwargs := ArgMap.nil, targetPathList := []
                ignorePathList := [], priority := 0, deps := [] }]
    closed := false, delayedStart := true }

/-! ## Dependency relations and run invariants -/

/-- `d` is a direct dependency of task `i`. -/
def depOf (tasks : List Task) (d i : Nat) : Prop :=
  d ∈ (taskAt tasks i).deps

/-- `a` is a transitive ancestor of `i` in the dependency graph. -/
def ancestorOf (tasks : List Task) (a i : Nat) : Prop :=
  Relation.TransGen (depOf tasks) a i

/-- Well-formed dependencies (spec I1): every declared dependency is an
earlier submission. -/
def WFDeps (tasks : List Task) : Prop :=
  ∀ i, ∀ d ∈ (taskAt tasks i).deps, d < i

/-- Some direct dependency of `i` has Failed. -/
def hasFailedDep (tasks : List Task) (states : List (Option TaskState))
    (i : Nat) : Prop :=
  ∃ d ∈ (taskAt tasks i).deps, stOf states d = some TaskState.failed

/-- The run invariant: (0) the state table covers exactly the tasks;
(1) a terminal task with a Failed dependency is itself Failed;
(2) an invoked task has no Failed dependency;
(3) a terminal task's dependencies are all terminal;
(4) invoked tasks are terminal. -/
def RunInv (tasks : List Task) (rs : RunState) : Prop :=
  rs.states.length = tasks.length ∧
  (∀ i s, stOf rs.states i = some s → hasFailedDep tasks rs.states i →
    s = TaskState.failed) ∧
  (∀ i, i ∈ rs.world.invoked → ¬ hasFailedDep tasks rs.states i) ∧
  (∀ i, (stOf rs.states i).isSome = true →
    ∀ d ∈ (taskAt tasks i).deps, (stOf rs.states d).isSome = true) ∧
  (∀ i, i ∈ rs.world.invoked → (stOf rs.states i).isSome = true)

/-- Number of tasks not yet terminal. -/
def unfinCount (states : List (Option TaskState)) : Nat :=
  states.countP fun s => s.isNone

/-! ## Helper lemmas -/

/-- `s` contains `sub` as a substring. -/
def hasSubstring (s sub : String) : Prop := ∃ pre post, s = pre ++ sub ++ post

theorem taskAt_append_length (l : List Task) (t : Task) (l2 : List Task) :
    taskAt (l ++ t :: l2) l.length = t := by
  induction l with
  | nil => rfl
  | cons a rest ih => simpa [taskAt, List.get?] using ih

theorem stOf_nil (i : Nat) : stOf [] i = none := by
  cases i <;> rfl

theorem stOf_cons_succ (a : Option TaskState) (l : List (Option TaskState))
    (i : Nat) : stOf (a :: l) (i + 1) = stOf l i := rfl

theorem stOf_set_ne (l : List (Option TaskState)) (i j : Nat)
    (v : Option TaskState) (h : i ≠ j) : stOf (l.set i v) j = stOf l j := by
  induction l generalizing i j with
  | nil => rfl
  | cons a rest ih =>
    cases i with
    | zero =>
      cases j with
      | zero => exact absurd rfl h
      | succ j2 => rfl
    | succ i2 =>
      cases j with
      | zero => rfl
      | succ j2 => exact ih i2 j2 (fun he => h (by rw [he]))

theorem stOf_set_self (l : List (Option TaskState)) (i : Nat)
    (v : Option TaskState) (h : i < l.length) : stOf (l.set i v) i = v := by
  induction l generalizing i with
  | nil => exact absurd h (by simp)
  | cons a rest ih =>
    cases i with
    | zero => rfl
    | succ i2 => exact ih i2 (by simpa using h)

theorem stOf_replicate (n i : Nat) :
    stOf (List.replicate n (none : Option TaskState)) i = none := by
  induction n generalizing i with
  | zero => exact stOf_nil i
  | succ m ih =>
    cases i with
    | zero => rfl
    | succ i2 => exact ih i2

theorem countP_set_some (l : List (Option TaskState)) :
    ∀ i v, stOf l i = none → i < l.length →
      (l.set i (some v)).countP (fun s => s.isNone) + 1 =
        l.countP fun s => s.isNone := by
  induction l with
  | nil => intro i v _ h; exact absurd h (by simp)
  | cons a rest ih =>
    intro i v hnone hlen
    cases i with
    | zero =>
      have ha : a = none := hnone
      subst ha
      simp [List.countP_cons]
    | succ i2 =>
      have h2 := ih i2 v hnone (by simpa using hlen)
      simp only [List.set, List.countP_cons]
      omega

theorem unfinCount_replicate (n : Nat) :
    unfinCount (List.replicate n (none : Option TaskState)) = n := by
  induction n with
  | zero => rfl
  | succ m ih =>
    simp only [unfinCount, List.replicate, List.countP_cons] at ih ⊢
    simp [ih]

theorem mem_readyIds (tasks : List Task) (states : List (Option TaskState))
    (i : Nat) : i ∈ readyIds tasks states ↔
      i < tasks.length ∧ stOf states i = none ∧
        ∀ d ∈ (taskAt tasks i).deps, (stOf states d).isSome = true := by
  unfold readyIds isReadyAt
  rw [List.mem_filter, List.mem_range]
  rw [Bool.and_eq_true, List.all_eq_true, Option.isNone_iff_eq_none]

theorem lt_length_of_mem_deps (tasks : List Task) (d i : Nat)
    (h : d ∈ (taskAt tasks i).deps) : i < tasks.length := by
  by_contra hge
  have hnone : tasks.get? i = none :=
    List.get?_eq_none.mpr (by omega)
  have : taskAt tasks i = dummyTask := by
    unfold taskAt
    rw [hnone]
    rfl
  rw [this] at h
  exact absurd h (List.not_mem_nil d)

theorem hasFailedDep_iff_any (tasks : List Task)
    (states : List (Option TaskState)) (i : Nat) :
    hasFailedDep tasks states i ↔
      ((taskAt tasks i).deps.any fun d =>
        stOf states d = some TaskState.failed) = true := by
  rw [List.any_eq_true]
  unfold hasFailedDep
  simp

theorem pickBest_mem (tasks : List Task) : (l : List Nat) → ∀ i,
    pickBest tasks l = some i → i ∈ l
  | [] => by intro i h; simp [pickBest] at h
  | a :: rest => by
    intro i h
    rw [pickBest] at h
    cases hr : pickBest tasks rest with
    | none =>
      rw [hr] at h
      have h2 : some a = some i := h
      have : a = i := by simpa using h2
      rw [← this]
      exact List.mem_cons_self a rest
    | some k =>
      rw [hr] at h
      have h2 : (if schedBefore tasks k a = true then some k else some a) =
          some i := h
      by_cases hb : schedBefore tasks k a = true
      · rw [if_pos hb] at h2
        have : k = i := by simpa using h2
        rw [← this]
        exact List.mem_cons_of_mem a (pickBest_mem tasks rest k hr)
      · rw [if_neg hb] at h2
        have : a = i := by simpa using h2
        rw [← this]
        exact List.mem_cons_self a rest

theorem statLeaf_some_cases (fs : FileSystem) (ign : List String)
    (incl : Bool) (s : String) (r : StatRecord)
    (h : statLeaf fs ign incl s = some r) :
    s ∉ ign ∧ r.1 = s ∧
      (fs.stat s = some (FSEntry.file r.2.1 r.2.2) ∨
       (incl = true ∧ r.2.1 = 0 ∧ fs.stat s = some (FSEntry.dir r.2.2))) := by
  unfold statLeaf at h
  by_cases hmem : s ∈ ign
  · simp [hmem] at h
  · rw [if_neg hmem] at h
    refine ⟨hmem, ?_⟩
    cases hstat : fs.stat s with
    | none => rw [hstat] at h; exact absurd h (by simp)
    | some e =>
      rw [hstat] at h
      cases e with
      | file sz mt =>
        simp only [Option.some.injEq] at h
        subst h
        exact ⟨rfl, Or.inl rfl⟩
      | dir mt =>
        cases hincl : incl with
        | false => rw [hincl] at h; simp at h
        | true =>
          rw [hincl] at h
          simp only [if_true, Option.some.injEq] at h
          subst h
          exact ⟨rfl, Or.inr ⟨rfl, rfl, rfl⟩⟩

mutual

theorem statsValue_eq_filterMap (fs : FileSystem) (ign : List String)
    (incl : Bool) :
    (v : ArgValue) → statsValue fs ign incl v =
      (leafStringsValue v).filterMap (statLeaf fs ign incl)
  | ArgValue.str s => by
    cases h : statLeaf fs ign incl s <;>
      simp [statsValue, leafStringsValue, h]
  | ArgValue.num _ => rfl
  | ArgValue.seq l => by
    rw [statsValue, leafStringsValue, statsList_eq_filterMap fs ign incl l]
  | ArgValue.map m => by
    rw [statsValue, leafStringsValue, statsMap_eq_filterMap fs ign incl m]

theorem statsList_eq_filterMap (fs : FileSystem) (ign : List String)
    (incl : Bool) :
    (l : ArgList) → statsList fs ign incl l =
      (leafStringsList l).filterMap (statLeaf fs ign incl)
  | ArgList.nil => rfl
  | ArgList.cons v rest => by
    rw [statsList, leafStringsList, List.filterMap_append,
      statsValue_eq_filterMap fs ign incl v,
      statsList_eq_filterMap fs ign incl rest]

theorem statsMap_eq_filterMap (fs : FileSystem) (ign : List String)
    (incl : Bool) :
    (m : ArgMap) → statsMap fs ign incl m =
      (leafStringsMap m).filterMap (statLeaf fs ign incl)
  | ArgMap.nil => rfl
  | ArgMap.cons _ v rest => by
    rw [statsMap, leafStringsMap, List.filterMap_append,
      statsValue_eq_filterMap fs ign incl v,
      statsMap_eq_filterMap fs ign incl rest]

end

theorem leaves_insertByKey (k : String) (v : ArgValue) :
    (m : ArgMap) → List.Perm (leafStringsMap (insertByKey k v m))
      (leafStringsValue v ++ leafStringsMap m)
  | ArgMap.nil => by simp [insertByKey, leafStringsMap]
  | ArgMap.cons k2 v2 rest => by
    by_cases hle : pathLe k k2
    · rw [insertByKey, if_pos hle]
      exact List.Perm.refl _
    · rw [insertByKey, if_neg hle, leafStringsMap, leafStringsMap]
      refine ((leaves_insertByKey k v rest).append_left
        (leafStringsValue v2)).trans ?_
      rw [← List.append_assoc, ← List.append_assoc]
      exact (List.perm_append_comm).append_right _

theorem leaves_sortByKey : (m : ArgMap) →
    List.Perm (leafStringsMap (sortByKey m)) (leafStringsMap m)
  | ArgMap.nil => List.Perm.refl _
  | ArgMap.cons k v rest => by
    rw [sortByKey]
    exact (leaves_insertByKey k v (sortByKey rest)).trans
      ((leaves_sortByKey rest).append_left (leafStringsValue v))

mutual

theorem leaves_canonValue : (v : ArgValue) →
    List.Perm (leafStringsValue (canonValue v)) (leafStringsValue v)
  | ArgValue.str _ => List.Perm.refl _
  | ArgValue.num _ => List.Perm.refl _
  | ArgValue.seq l => leaves_canonList l
  | ArgValue.map m => (leaves_sortByKey (canonMap m)).trans (leaves_canonMap m)

theorem leaves_canonList : (l : ArgList) →
    List.Perm (leafStringsList (canonList l)) (leafStringsList l)
  | ArgList.nil => List.Perm.refl _
  | ArgList.cons v rest =>
    (leaves_canonValue v).append (leaves_canonList rest)

theorem leaves_canonMap : (m : ArgMap) →
    List.Perm (leafStringsMap (canonMap m)) (leafStringsMap m)
  | ArgMap.nil => List.Perm.refl _
  | ArgMap.cons _ v rest =>
    (leaves_canonValue v).append (leaves_canonMap rest)

end

theorem statLeaf_congr (fs : FileSystem) {ign1 ign2 : List String}
    (incl : Bool) (s : String) (h : s ∈ ign1 ↔ s ∈ ign2) :
    statLeaf fs ign1 incl s = statLeaf fs ign2 incl s := by
  unfold statLeaf
  by_cases hm : s ∈ ign1
  · rw [if_pos hm, if_pos (h.mp hm)]
  · rw [if_neg hm, if_neg (fun hx => hm (h.mpr hx))]

mutual

theorem substStatsValue_congr (fs : FileSystem) {ign1 ign2 : List String}
    (h : ∀ s, s ∈ ign1 ↔ s ∈ ign2) : (v : ArgValue) →
    substStatsValue fs ign1 v = substStatsValue fs ign2 v
  | ArgValue.str s => by
    rw [substStatsValue, substStatsValue, statLeaf_congr fs false s (h s)]
  | ArgValue.num _ => rfl
  | ArgValue.seq l => by
    rw [substStatsValue, substStatsValue, substStatsList_congr fs h l]
  | ArgValue.map m => by
    rw [substStatsValue, substStatsValue, substStatsMap_congr fs h m]

theorem substStatsList_congr (fs : FileSystem) {ign1 ign2 : List String}
    (h : ∀ s, s ∈ ign1 ↔ s ∈ ign2) : (l : ArgList) →
    substStatsList fs ign1 l = substStatsList fs ign2 l
  | ArgList.nil => rfl
  | ArgList.cons v rest => by
    rw [substStatsList, substStatsList, substStatsValue_congr fs h v,
      substStatsList_congr fs h rest]

theorem substStatsMap_congr (fs : FileSystem) {ign1 ign2 : List String}
    (h : ∀ s, s ∈ ign1 ↔ s ∈ ign2) : (m : ArgMap) →
    substStatsMap fs ign1 m = substStatsMap fs ign2 m
  | ArgMap.nil => rfl
  | ArgMap.cons k v rest => by
    rw [substStatsMap, substStatsMap, substStatsValue_congr fs h v,
      substStatsMap_congr fs h rest]

end

theorem charListLeB_cons_iff (a b : Char) (as bs : List Char) :
    charListLeB (a :: as) (b :: bs) = true ↔
      a.toNat < b.toNat ∨ (a.toNat = b.toNat ∧ charListLeB as bs = true) := by
  by_cases h1 : a.toNat < b.toNat
  · simp [charListLeB, h1]
  · by_cases h2 : b.toNat < a.toNat
    · simp only [charListLeB, if_neg h1, if_pos h2]
      constructor
      · intro hf
        simp at hf
      · rintro (h | ⟨h, _⟩) <;> omega
    · have heq : a.toNat = b.toNat := by omega
      simp [charListLeB, h1, h2, heq]

theorem charListLeB_total (x : List Char) :
    ∀ y, charListLeB x y = true ∨ charListLeB y x = true := by
  induction x with
  | nil => exact fun y => Or.inl rfl
  | cons a as ih =>
    intro y
    cases y with
    | nil => exact Or.inr rfl
    | cons b bs =>
      rcases Nat.lt_trichotomy a.toNat b.toNat with h | h | h
      · exact Or.inl ((charListLeB_cons_iff a b as bs).mpr (Or.inl h))
      · rcases ih bs with hc | hc
        · exact Or.inl ((charListLeB_cons_iff a b as bs).mpr
            (Or.inr ⟨h, hc⟩))
        · exact Or.inr ((charListLeB_cons_iff b a bs as).mpr
            (Or.inr ⟨h.symm, hc⟩))
      · exact Or.inr ((charListLeB_cons_iff b a bs as).mpr (Or.inl h))

theorem charListLeB_trans (x : List Char) : ∀ y z,
    charListLeB x y = true → charListLeB y z = true →
      charListLeB x z = true := by
  induction x with
  | nil => exact fun _ _ _ _ => rfl
  | cons a as ih =>
    intro y z hxy hyz
    cases y with
    | nil => exact absurd hxy (by simp [charListLeB])
    | cons b bs =>
      cases z with
      | nil => exact absurd hyz (by simp [charListLeB])
      | cons c cs =>
        rw [charListLeB_cons_iff] at hxy hyz ⊢
        rcases hxy with h1 | ⟨h1, hr1⟩
        · rcases hyz with h2 | ⟨h2, _⟩
          · exact Or.inl (by omega)
          · exact Or.inl (by omega)
        · rcases hyz with h2 | ⟨h2, hr2⟩
          · exact Or.inl (by omega)
          · exact Or.inr ⟨by omega, ih bs cs hr1 hr2⟩

theorem charListLeB_antisymm (x : List Char) : ∀ y,
    charListLeB x y = true → charListLeB y x = true → x = y := by
  induction x with
  | nil =>
    intro y h1 h2
    cases y with
    | nil => rfl
    | cons b bs => exact absurd h2 (by simp [charListLeB])
  | cons a as ih =>
    intro y h1 h2
    cases y with
    | nil => exact absurd h1 (by simp [charListLeB])
    | cons b bs =>
      rw [charListLeB_cons_iff] at h1 h2
      rcases h1 with h1 | ⟨h1, hr1⟩
      · rcases h2 with h2 | ⟨h2, _⟩ <;> omega
      · rcases h2 with h2 | ⟨h2, hr2⟩
        · omega
        · have hab : a = b := Char.eq_of_val_eq (UInt32.ext h1)
          rw [hab, ih bs hr1 hr2]

instance : IsTotal String pathLe :=
  ⟨fun s t => charListLeB_total s.data t.data⟩

instance : IsTrans String pathLe :=
  ⟨fun s t u => charListLeB_trans s.data t.data u.data⟩

instance : IsAntisymm String pathLe := by
  refine ⟨fun s t h1 h2 => ?_⟩
  cases s with
  | mk sd =>
    cases t with
    | mk td =>
      exact congrArg String.mk (charListLeB_antisymm sd td h1 h2)

theorem sortStrings_perm {l1 l2 : List String} (h : List.Perm l1 l2) :
    sortStrings l1 = sortStrings l2 :=
  List.eq_of_perm_of_sorted
    ((List.perm_insertionSort _ l1).trans
      (h.trans (List.perm_insertionSort _ l2).symm))
    (List.sorted_insertionSort _ l1) (List.sorted_insertionSort _ l2)

theorem schedBefore_true_iff (tasks : List Task) (a b : Nat) :
    schedBefore tasks a b = true ↔
      ((taskAt tasks a).priority > (taskAt tasks b).priority ∨
       ((taskAt tasks a).priority = (taskAt tasks b).priority ∧ a < b)) := by
  simp [schedBefore]

theorem schedBefore_false_iff (tasks : List Task) (a b : Nat) :
    schedBefore tasks a b = false ↔
      ((taskAt tasks a).priority < (taskAt tasks b).priority ∨
       ((taskAt tasks a).priority = (taskAt tasks b).priority ∧ b ≤ a)) := by
  rw [← Bool.not_eq_true, schedBefore_true_iff]
  constructor
  · intro h
    omega
  · intro h hc
    omega

theorem pickBest_eq_none (tasks : List Task) : (l : List Nat) →
    (pickBest tasks l = none ↔ l = [])
  | [] => by simp [pickBest]
  | a :: rest => by
    rw [pickBest]
    cases hr : pickBest tasks rest with
    | none => simp
    | some j =>
      by_cases hb : schedBefore tasks j a = true <;> simp [hb]

theorem pickBest_best (tasks : List Task) : (l : List Nat) → ∀ i,
    pickBest tasks l = some i → ∀ j ∈ l, schedBefore tasks j i = false
  | [] => by intro i h; simp [pickBest] at h
  | a :: rest => by
    intro i h j hj
    rw [pickBest] at h
    cases hr : pickBest tasks rest with
    | none =>
      rw [hr] at h
      have h2 : some a = some i := h
      have hia : a = i := by simpa using h2
      have hrest : rest = [] := (pickBest_eq_none tasks rest).mp hr
      rw [hrest] at hj
      have hja : j = a := by simpa using hj
      rw [hja, ← hia, schedBefore_false_iff]
      omega
    | some k =>
      rw [hr] at h
      have h2 : (if schedBefore tasks k a = true then some k else some a) =
          some i := h
      by_cases hb : schedBefore tasks k a = true
      · rw [if_pos hb] at h2
        have hik : k = i := by simpa using h2
        rcases List.mem_cons.mp hj with hja | hjr
        · rw [hja, ← hik]
          rw [schedBefore_true_iff] at hb
          rw [schedBefore_false_iff]
          omega
        · rw [← hik]
          exact pickBest_best tasks rest k hr j hjr
      · rw [if_neg hb] at h2
        have hia : a = i := by simpa using h2
        rcases List.mem_cons.mp hj with hja | hjr
        · rw [hja, ← hia, schedBefore_false_iff]
          omega
        · have h1 := pickBest_best tasks rest k hr j hjr
          rw [Bool.not_eq_true, schedBefore_false_iff] at hb
          rw [← hia]
          rw [schedBefore_false_iff] at h1 ⊢
          omega

theorem finalizeTask_shape (tasks : List Task) (rs : RunState) (i : Nat) :
    ∃ s : TaskState,
      (finalizeTask tasks rs i).states = rs.states.set i (some s) ∧
      ((finalizeTask tasks rs i).world.invoked = rs.world.invoked ∨
        ((finalizeTask tasks rs i).world.invoked = rs.world.invoked ++ [i] ∧
          ((taskAt tasks i).deps.any fun d =>
            stOf rs.states d = some TaskState.failed) = false)) ∧
      (((taskAt tasks i).deps.any fun d =>
          stOf rs.states d = some TaskState.failed) = true →
        s = TaskState.failed) := by
  unfold finalizeTask
  split
  next hg => exact ⟨TaskState.failed, rfl, Or.inl rfl, fun _ => rfl⟩
  next hg =>
    have hgf : ((taskAt tasks i).deps.any fun d =>
        stOf rs.states d = some TaskState.failed) = false :=
      Bool.not_eq_true _ |>.mp hg
    split
    next outcome hc =>
      exact ⟨outcome, rfl, Or.inl rfl, fun h => absurd h hg⟩
    next hc =>
      split
      next hs =>
        exact ⟨TaskState.precomputed, rfl, Or.inl rfl, fun h => absurd h hg⟩
      next hs =>
        split
        next ha =>
          exact ⟨TaskState.failed, rfl, Or.inr ⟨rfl, hgf⟩,
            fun h => absurd h hg⟩
        next fs2 log2 ha =>
          split
          next ht =>
            exact ⟨TaskState.complete, rfl, Or.inr ⟨rfl, hgf⟩,
              fun h => absurd h hg⟩
          next ht =>
            exact ⟨TaskState.failed, rfl, Or.inr ⟨rfl, hgf⟩,
              fun h => absurd h hg⟩

theorem finalize_preserves_inv (tasks : List Task) (rs : RunState) (i : Nat)
    (hInv : RunInv tasks rs) (hi : i ∈ readyIds tasks rs.states) :
    RunInv tasks (finalizeTask tasks rs i) := by
  obtain ⟨hlen, h1, h2, h3, h4⟩ := hInv
  obtain ⟨hin, hnone, hdeps⟩ := (mem_readyIds tasks rs.states i).mp hi
  obtain ⟨s, hst, hinv, hfl⟩ := finalizeTask_shape tasks rs i
  have hilen : i < rs.states.length := by rw [hlen]; exact hin
  have hdne : ∀ d ∈ (taskAt tasks i).deps, d ≠ i := by
    intro d hd he
    have hds := hdeps d hd
    rw [he, hnone] at hds
    simp at hds
  have hpres : ∀ j, j ≠ i →
      stOf (finalizeTask tasks rs i).states j = stOf rs.states j := by
    intro j hne
    rw [hst]
    exact stOf_set_ne _ _ _ _ fun he => hne he.symm
  have hsti : stOf (finalizeTask tasks rs i).states i = some s := by
    rw [hst]
    exact stOf_set_self _ _ _ hilen
  have hne_of_some : ∀ j, (stOf rs.states j).isSome = true → j ≠ i := by
    intro j hj he
    rw [he, hnone] at hj
    simp at hj
  refine ⟨?_, ?_, ?_, ?_, ?_⟩
  · rw [hst]
    simpa [List.length_set] using hlen
  · intro j s2 hj hfd
    by_cases hji : j = i
    · subst hji
      rw [hsti] at hj
      have hs2 : s = s2 := by simpa using hj
      obtain ⟨d, hd, hdf⟩ := hfd
      rw [hpres d (hdne d hd)] at hdf
      have hany := (hasFailedDep_iff_any tasks rs.states j).mp ⟨d, hd, hdf⟩
      rw [← hs2]
      exact hfl hany
    · rw [hpres j hji] at hj
      have hjsome : (stOf rs.states j).isSome = true := by rw [hj]; rfl
      obtain ⟨d, hd, hdf⟩ := hfd
      have hdsome := h3 j hjsome d hd
      rw [hpres d (hne_of_some d hdsome)] at hdf
      exact h1 j s2 hj ⟨d, hd, hdf⟩
  · intro j hjinv hfd
    have hold : j ∈ rs.world.invoked → False := by
      intro hjold
      obtain ⟨d, hd, hdf⟩ := hfd
      have hjsome := h4 j hjold
      have hdsome := h3 j hjsome d hd
      rw [hpres d (hne_of_some d hdsome)] at hdf
      exact h2 j hjold ⟨d, hd, hdf⟩
    rcases hinv with hsame | ⟨hext, hgf⟩
    · exact hold (hsame ▸ hjinv)
    · rw [hext] at hjinv
      rcases List.mem_append.mp hjinv with hjold | hnew
      · exact hold hjold
      · have hji : j = i := by simpa using hnew
        subst hji
        obtain ⟨d, hd, hdf⟩ := hfd
        rw [hpres d (hdne d hd)] at hdf
        have hany := (hasFailedDep_iff_any tasks rs.states j).mp ⟨d, hd, hdf⟩
        rw [hany] at hgf
        exact Bool.noConfusion hgf
  · intro j hjsome2 d hd
    by_cases hji : j = i
    · subst hji
      have hdsome := hdeps d hd
      rw [hpres d (hdne d hd)]
      exact hdsome
    · rw [hpres j hji] at hjsome2
      have hdsome := h3 j hjsome2 d hd
      rw [hpres d (hne_of_some d hdsome)]
      exact hdsome
  · intro j hjinv
    have hold : j ∈ rs.world.invoked → (stOf (finalizeTask tasks rs i).states j).isSome = true := by
      intro hjold
      have hjsome := h4 j hjold
      rw [hpres j (hne_of_some j hjsome)]
      exact hjsome
    rcases hinv with hsame | ⟨hext, _⟩
    · exact hold (hsame ▸ hjinv)
    · rw [hext] at hjinv
      rcases List.mem_append.mp hjinv with hjold | hnew
      · exact hold hjold
      · have hji : j = i := by simpa using hnew
        subst hji
        rw [hsti]
        rfl

theorem stepRun_some (tasks : List Task) (rs rs2 : RunState)
    (h : stepRun tasks rs = some rs2) :
    ∃ i, pickBest tasks (readyIds tasks rs.states) = some i ∧
      rs2 = finalizeTask tasks rs i := by
  unfold stepRun at h
  cases hp : pickBest tasks (readyIds tasks rs.states) with
  | none => rw [hp] at h; exact absurd h (by simp)
  | some i =>
    rw [hp] at h
    exact ⟨i, rfl, by simpa using h.symm⟩

theorem stepRun_none (tasks : List Task) (rs : RunState)
    (h : stepRun tasks rs = none) :
    pickBest tasks (readyIds tasks rs.states) = none := by
  unfold stepRun at h
  cases hp : pickBest tasks (readyIds tasks rs.states) with
  | none => rfl
  | some i => rw [hp] at h; exact absurd h (by simp)

theorem runLoop_preserves_inv (tasks : List Task) : ∀ (fuel : Nat)
    (rs : RunState), RunInv tasks rs → RunInv tasks (runLoop tasks fuel rs)
  | 0, rs, h => h
  | Nat.succ n, rs, h => by
    rw [runLoop]
    cases hs : stepRun tasks rs with
    | none => exact h
    | some rs2 =>
      obtain ⟨i, hp, hrs2⟩ := stepRun_some tasks rs rs2 hs
      have hmem := pickBest_mem tasks _ i hp
      rw [hrs2]
      exact runLoop_preserves_inv tasks n _
        (finalize_preserves_inv tasks rs i h hmem)

theorem initState_inv (tasks : List Task) (w : World)
    (hw : w.invoked = []) : RunInv tasks (initState tasks w) := by
  refine ⟨by simp [initState], ?_, ?_, ?_, ?_⟩
  · intro i s hi
    rw [show (initState tasks w).states =
      List.replicate tasks.length none from rfl, stOf_replicate] at hi
    exact absurd hi (by simp)
  · intro i hi
    rw [show (initState tasks w).world.invoked = w.invoked from rfl, hw] at hi
    exact absurd hi (List.not_mem_nil i)
  · intro i hi
    rw [show (initState tasks w).states =
      List.replicate tasks.length none from rfl, stOf_replicate] at hi
    exact absurd hi (by simp)
  · intro i hi
    rw [show (initState tasks w).world.invoked = w.invoked from rfl, hw] at hi
    exact absurd hi (List.not_mem_nil i)

theorem readyIds_ne_nil (tasks : List Task)
    (states : List (Option TaskState)) (hwf : WFDeps tasks)
    (hex : ∃ i, i < tasks.length ∧ stOf states i = none) :
    readyIds tasks states ≠ [] := by
  have hm := Nat.find_spec hex
  have hready : Nat.find hex ∈ readyIds tasks states := by
    rw [mem_readyIds]
    refine ⟨hm.1, hm.2, ?_⟩
    intro d hd
    have hdm : d < Nat.find hex := hwf (Nat.find hex) d hd
    have hmin := Nat.find_min hex hdm
    have hdlen : d < tasks.length := lt_trans hdm hm.1
    cases h2 : stOf states d with
    | none => exact absurd ⟨hdlen, h2⟩ hmin
    | some s => rfl
  intro hnil
  rw [hnil] at hready
  exact List.not_mem_nil _ hready

theorem runLoop_complete (tasks : List Task) (hwf : WFDeps tasks) :
    ∀ (fuel : Nat) (rs : RunState), rs.states.length = tasks.length →
      unfinCount rs.states ≤ fuel → ∀ i, i < tasks.length →
        (stOf (runLoop tasks fuel rs).states i).isSome = true := by
  intro fuel
  induction fuel with
  | zero =>
    intro rs hlen hcnt i hi
    rw [runLoop]
    have h0 : unfinCount rs.states = 0 := Nat.le_zero.mp hcnt
    rw [unfinCount, List.countP_eq_zero] at h0
    cases hg : rs.states.get? i with
    | none =>
      have := List.get?_eq_none.mp hg
      omega
    | some a =>
      have hmem : a ∈ rs.states := List.get?_mem hg
      have hnn := h0 a hmem
      unfold stOf
      rw [hg]
      cases a with
      | none => exact (hnn rfl).elim
      | some s => rfl
  | succ n ih =>
    intro rs hlen hcnt i hi
    rw [runLoop]
    cases hs : stepRun tasks rs with
    | none =>
      have hempty : readyIds tasks rs.states = [] :=
        (pickBest_eq_none tasks _).mp (stepRun_none tasks rs hs)
      cases h2 : stOf rs.states i with
      | none =>
        exact absurd hempty (readyIds_ne_nil tasks rs.states hwf ⟨i, hi, h2⟩)
      | some s => rfl
    | some rs2 =>
      obtain ⟨j, hp, hrs2⟩ := stepRun_some tasks rs rs2 hs
      have hj := pickBest_mem tasks _ j hp
      obtain ⟨hjlt, hjnone, _⟩ := (mem_readyIds tasks rs.states j).mp hj
      obtain ⟨s, hset, _, _⟩ := finalizeTask_shape tasks rs j
      have hlen2 : rs2.states.length = tasks.length := by
        rw [hrs2, hset]
        simpa [List.length_set] using hlen
      have hcnt2 : unfinCount rs2.states ≤ n := by
        have hdec := countP_set_some rs.states j s hjnone (by omega)
        rw [hrs2, hset]
        unfold unfinCount at hcnt ⊢
        omega
      exact ih rs2 hlen2 hcnt2 i hi

/-- The full run of a well-formed graph satisfies the run invariant and
reaches a terminal state for every task. -/
theorem runGraph_inv_complete (tasks : List Task) (w : World)
    (hwf : WFDeps tasks) (hw : w.invoked = []) :
    RunInv tasks (runGraph tasks w) ∧
      ∀ i, i < tasks.length →
        (stOf (runGraph tasks w).states i).isSome = true := by
  constructor
  · exact runLoop_preserves_inv tasks tasks.length _ (initState_inv tasks w hw)
  · refine runLoop_complete tasks hwf tasks.length (initState tasks w)
      (by simp [initState]) ?_
    rw [show (initState tasks w).states =
      List.replicate tasks.length none from rfl, unfinCount_replicate]

/-! ## Claim theorems -/

/-- Claim C1: persistent memoization (I5): when a task is picked up Ready —
no failed dependency, no in-graph claim on its fingerprint — and the Store
holds a record for the fingerprint whose recorded outputs all verify
against the filesystem, the task is marked Precomputed and nothing else
changes: the callable is not invoked and the filesystem (hence every
mtime) is untouched.  Concretely, in `test_precomputed_task` the identical
re-submission on a fresh graph over the same workspace invokes nothing and
leaves `1000.dat` with its original mtime 0 even though the second run's
clock is 100. -/
theorem persistent_memoization (tasks : List Task) (rs : RunState) (i : Nat)
    (hnf : ((taskAt tasks i).deps.any fun d =>
      stOf rs.states d = some TaskState.failed) = false)
    (hcl : lookupClaim rs.claims
      (fingerprintOf rs.world.fs (taskAt tasks i)) = none)
    (hhit : storeHit rs.world.store rs.world.fs
      (fingerprintOf rs.world.fs (taskAt tasks i)) = true) :
    finalizeTask tasks rs i =
      { rs with states := rs.states.set i (some TaskState.precomputed) } ∧
    stOf precomputedRun2.states 0 = some TaskState.precomputed ∧
    precomputedRun2.world.invoked = [] ∧
    precomputedRun2.world.fs = precomputedRun1.world.fs ∧
    precomputedRun1.world.fs.stat "/ws/1000.dat" =
      some (FSEntry.file 1000 0) := by
  refine ⟨?_, by decide, by decide, by decide, by decide⟩
  unfold finalizeTask
  rw [if_neg (by simp [hnf])]
  simp only [hcl, hhit, if_true]

/-- Witness for C1: the second `test_precomputed_task` run picks up the
resubmitted task with the first run's store and filesystem and marks it
Precomputed without touching the world. -/
theorem persistent_memoization_witness :
    finalizeTask [singleListTask]
        (initState [singleListTask] precomputedWorld2) 0 =
      { initState [singleListTask] precomputedWorld2 with
        states := (initState [singleListTask] precomputedWorld2).states.set 0
          (some TaskState.precomputed) } ∧
    stOf precomputedRun2.states 0 = some TaskState.precomputed ∧
    precomputedRun2.world.invoked = [] ∧
    precomputedRun2.world.fs = precomputedRun1.world.fs ∧
    precomputedRun1.world.fs.stat "/ws/1000.dat" =
      some (FSEntry.file 1000 0) :=
  persistent_memoization [singleListTask]
    (initState [singleListTask] precomputedWorld2) 0
    (by decide) (by decide) (by decide)

theorem brokenChainTasks_wf : WFDeps brokenChainTasks := by
  intro i d hd
  match i with
  | 0 =>
    rw [show (taskAt brokenChainTasks 0).deps = [] from rfl] at hd
    exact absurd hd (List.not_mem_nil d)
  | 1 =>
    rw [show (taskAt brokenChainTasks 1).deps = [0] from rfl] at hd
    have : d = 0 := by simpa using hd
    omega
  | n + 2 =>
    rw [show (taskAt brokenChainTasks (n + 2)).deps = [] from rfl] at hd
    exact absurd hd (List.not_mem_nil d)

/-- Claim C2: failure propagation (I6/P6): in the run of a well-formed
graph, every task with a transitively Failed ancestor is itself Failed and
its callable is never invoked.  Concretely, in `test_broken_task_chain` the
graph `join` raises GraphFailure carrying the failed tasks, the workspace
contains no files at all (the dependent task's declared output was never
created), and only the raising task was invoked. -/
theorem failure_propagation (tasks : List Task) (w : World) (a i : Nat)
    (hwf : WFDeps tasks) (hw : w.invoked = [])
    (hanc : ancestorOf tasks a i)
    (hfail : stOf (runGraph tasks w).states a = some TaskState.failed) :
    (stOf (runGraph tasks w).states i = some TaskState.failed ∧
      i ∉ (runGraph tasks w).world.invoked) ∧
    joinGraph brokenChainGraph emptyWorld =
      Except.error (TgError.graphFailure [0, 1]) ∧
    brokenChainRun.world.fs = [] ∧
    brokenChainRun.world.invoked = [0] := by
  refine ⟨?_, rfl, by decide, by decide⟩
  obtain ⟨hInv, hcomp⟩ := runGraph_inv_complete tasks w hwf hw
  obtain ⟨hlen, h1, h2, h3, h4⟩ := hInv
  have key : ∀ x y, depOf tasks x y →
      stOf (runGraph tasks w).states x = some TaskState.failed →
      stOf (runGraph tasks w).states y = some TaskState.failed ∧
        y ∉ (runGraph tasks w).world.invoked := by
    intro x y hdep hxfail
    have hy : y < tasks.length := lt_length_of_mem_deps tasks x y hdep
    have hsome := hcomp y hy
    cases hst : stOf (runGraph tasks w).states y with
    | none => rw [hst] at hsome; exact absurd hsome (by simp)
    | some s =>
      have hfd : hasFailedDep tasks (runGraph tasks w).states y :=
        ⟨x, hdep, hxfail⟩
      have hsf := h1 y s hst hfd
      exact ⟨by rw [hsf], fun hinv => h2 y hinv hfd⟩
  induction hanc with
  | single hdep => exact key a _ hdep hfail
  | tail hab hbc ih => exact key _ _ hbc ih.1

/-- Witness for C2: in `test_broken_task_chain`, the task depending on the
`_div_by_zero` task is Failed without being invoked; `join` raises and the
workspace is empty. -/
theorem failure_propagation_witness :
    (stOf (runGraph brokenChainTasks emptyWorld).states 1 =
        some TaskState.failed ∧
      1 ∉ (runGraph brokenChainTasks emptyWorld).world.invoked) ∧
    joinGraph brokenChainGraph emptyWorld =
      Except.error (TgError.graphFailure [0, 1]) ∧
    brokenChainRun.world.fs = [] ∧
    brokenChainRun.world.invoked = [0] :=
  failure_propagation brokenChainTasks emptyWorld 0 1 brokenChainTasks_wf
    rfl (Relation.TransGen.single
      (by decide : (0 : Nat) ∈ (taskAt brokenChainTasks 1).deps))
    (by decide)

/-- Claim C3: at-most-once execution per fingerprint within a graph (I4):
when a picked-up Ready task's fingerprint is already claimed within this
run, the task does not execute — the world, including the invocation trace
and the filesystem, is untouched — and it inherits the claimant's outcome.
Concretely, in `test_task_hash_when_ready` only the file-creating task and
the first merge task are invoked; the duplicate merge task still reaches
Complete, and the merge side effect happened exactly once
(`merged.txt` holds "wordword", size 8, not 16). -/
theorem duplicate_fingerprint_reuse (tasks : List Task) (rs : RunState)
    (i : Nat) (outcome : TaskState)
    (hnf : ((taskAt tasks i).deps.any fun d =>
      stOf rs.states d = some TaskState.failed) = false)
    (hcl : lookupClaim rs.claims
      (fingerprintOf rs.world.fs (taskAt tasks i)) = some outcome) :
    finalizeTask tasks rs i =
      { rs with states := rs.states.set i (some outcome) } ∧
    hashWhenReadyRun.world.invoked = [0, 1] ∧
    stOf hashWhenReadyRun.states 2 = some TaskState.complete ∧
    hashWhenReadyRun.world.fs.stat "/ws/merged.txt" =
      some (FSEntry.file 8 1) := by
  refine ⟨?_, by decide, by decide, by decide⟩
  unfold finalizeTask
  rw [if_neg (by simp [hnf])]
  simp only [hcl]

/-- Witness for C3: the duplicate merge task of `test_task_hash_when_ready`,
picked up after the first merge completed, inherits Complete without
executing. -/
theorem duplicate_fingerprint_reuse_witness :
    finalizeTask hashWhenReadyTasks
        (runLoop hashWhenReadyTasks 2 (initState hashWhenReadyTasks emptyWorld)) 2 =
      { runLoop hashWhenReadyTasks 2 (initState hashWhenReadyTasks emptyWorld) with
        states := (runLoop hashWhenReadyTasks 2
          (initState hashWhenReadyTasks emptyWorld)).states.set 2
            (some TaskState.complete) } ∧
    hashWhenReadyRun.world.invoked = [0, 1] ∧
    stOf hashWhenReadyRun.states 2 = some TaskState.complete ∧
    hashWhenReadyRun.world.fs.stat "/ws/merged.txt" =
      some (FSEntry.file 8 1) :=
  duplicate_fingerprint_reuse hashWhenReadyTasks
    (runLoop hashWhenReadyTasks 2 (initState hashWhenReadyTasks emptyWorld)) 2
    TaskState.complete (by decide) (by decide)

/-- Claim C4: the fingerprint is invariant under permutation of
`target_path_list`: two submissions identical except for the order of their
declared outputs have equal fingerprints; concretely, in
`test_target_path_order` the reordered twin is a memoization hit — only the
first task's callable is invoked, the second still reaches a terminal
Complete state, and each file was appended exactly once ("word"). -/
theorem fingerprint_target_order (fs : FileSystem) (a b : Task)
    (hfn : a.funcName = b.funcName) (hargs : a.args = b.args)
    (hkw : a.kwargs = b.kwargs) (hig : a.ignorePathList = b.ignorePathList)
    (hperm : List.Perm a.targetPathList b.targetPathList) :
    fingerprintOf fs a = fingerprintOf fs b ∧
    targetOrderRun.world.invoked = [0] ∧
    stOf targetOrderRun.states 1 = some TaskState.complete ∧
    targetOrderRun.world.fs.stat "/ws/a.txt" = some (FSEntry.file 4 0) ∧
    targetOrderRun.world.fs.stat "/ws/b.txt" = some (FSEntry.file 4 0) := by
  refine ⟨?_, by decide, by decide, by decide, by decide⟩
  have htree : a.argTree = b.argTree := by
    rw [Task.argTree, Task.argTree, hargs, hkw]
  have hmem : ∀ s, s ∈ a.ignorePathList ++ a.targetPathList ↔
      s ∈ b.ignorePathList ++ b.targetPathList := by
    intro s
    rw [hig]
    simp only [List.mem_append]
    exact or_congr Iff.rfl hperm.mem_iff
  unfold fingerprintOf
  rw [hfn, htree, sortStrings_perm hperm,
    substStatsValue_congr fs hmem, hig]

/-- Witness for C4: the two `test_target_path_order` submissions, whose
declared outputs are listed in opposite orders, have equal fingerprints on
the empty workspace. -/
theorem fingerprint_target_order_witness :
    fingerprintOf [] (createTwoFilesTask ["/ws/a.txt", "/ws/b.txt"] 0) =
      fingerprintOf [] (createTwoFilesTask ["/ws/b.txt", "/ws/a.txt"] 1) ∧
    targetOrderRun.world.invoked = [0] :=
  ⟨(fingerprint_target_order []
      (createTwoFilesTask ["/ws/a.txt", "/ws/b.txt"] 0)
      (createTwoFilesTask ["/ws/b.txt", "/ws/a.txt"] 1)
      rfl rfl rfl rfl (by decide)).1,
   (fingerprint_target_order []
      (createTwoFilesTask ["/ws/a.txt", "/ws/b.txt"] 0)
      (createTwoFilesTask ["/ws/b.txt", "/ws/a.txt"] 1)
      rfl rfl rfl rfl (by decide)).2.1⟩

/-- Claim C5: priority ordering with a single worker: when tasks `a` and
`b` are simultaneously Ready and `a` has strictly higher priority, the
scheduler never picks `b` for the next execution (so `a` executes first).
Concretely, the ten `test_delayed_execution` tasks with `priority := i`
execute in order 9..0 and leave `result_list = [9,8,7,6,5,4,3,2,1,0]`. -/
theorem delayed_priority_order (tasks : List Task)
    (states : List (Option TaskState)) (a b : Nat)
    (ha : a ∈ readyIds tasks states) (hb : b ∈ readyIds tasks states)
    (hp : (taskAt tasks a).priority > (taskAt tasks b).priority) :
    pickBest tasks (readyIds tasks states) ≠ some b ∧
    delayedRun.world.sideLog = [9, 8, 7, 6, 5, 4, 3, 2, 1, 0] ∧
    delayedRun.world.invoked = [9, 8, 7, 6, 5, 4, 3, 2, 1, 0] := by
  refine ⟨?_, by decide, by decide⟩
  intro hpick
  have h1 := pickBest_best tasks (readyIds tasks states) b hpick a ha
  rw [schedBefore_false_iff] at h1
  omega

/-- Witness for C5: in the delayed-start wave where all ten tasks are Ready
at once, the task of priority 0 is not the one picked while the task of
priority 9 is ready. -/
theorem delayed_priority_order_witness :
    pickBest delayedTasks
      (readyIds delayedTasks (List.replicate 10 none)) ≠ some 0 ∧
    delayedRun.world.sideLog = [9, 8, 7, 6, 5, 4, 3, 2, 1, 0] :=
  ⟨(delayed_priority_order delayedTasks (List.replicate 10 none) 9 0
      (by decide) (by decide) (by decide)).1,
   (delayed_priority_order delayedTasks (List.replicate 10 none) 9 0
      (by decide) (by decide) (by decide)).2.1⟩

/-- Claim C6: `_get_file_stats` emits a `(canonical_path, size, mtime)`
record exactly for the leaf strings of the argument value that name an
existing filesystem entry not in the ignore-paths (size 0 for directories);
with `include_directories` false, directories are skipped entirely (every
emitted record is a regular file); ignored and non-existent leaf strings
contribute nothing. -/
theorem get_file_stats_semantics (fs : FileSystem) (ign : List String)
    (incl : Bool) (v : ArgValue) (r : StatRecord) :
    (r ∈ _get_file_stats fs v ign incl ↔
      r.1 ∈ leafStringsValue v ∧ statLeaf fs ign incl r.1 = some r) ∧
    (incl = false → r ∈ _get_file_stats fs v ign incl →
      fs.stat r.1 = some (FSEntry.file r.2.1 r.2.2)) ∧
    (r ∈ _get_file_stats fs v ign incl → r.1 ∉ ign ∧ fs.stat r.1 ≠ none) := by
  have hchar : r ∈ _get_file_stats fs v ign incl ↔
      r.1 ∈ leafStringsValue v ∧ statLeaf fs ign incl r.1 = some r := by
    rw [_get_file_stats, statsValue_eq_filterMap, List.mem_filterMap]
    constructor
    · rintro ⟨s, hs, heq⟩
      have hfst := (statLeaf_some_cases fs ign incl s r heq).2.1
      rw [hfst]
      exact ⟨(leaves_canonValue v).mem_iff.mp hs, heq⟩
    · rintro ⟨hmem, heq⟩
      exact ⟨r.1, (leaves_canonValue v).mem_iff.mpr hmem, heq⟩
  refine ⟨hchar, ?_, ?_⟩
  · intro hincl hm
    obtain ⟨-, heq⟩ := hchar.mp hm
    obtain ⟨-, -, hc⟩ := statLeaf_some_cases fs ign incl r.1 r heq
    cases hc with
    | inl h => exact h
    | inr h => rw [hincl] at h; exact absurd h.1 (by simp)
  · intro hm
    obtain ⟨-, heq⟩ := hchar.mp hm
    obtain ⟨hni, -, hc⟩ := statLeaf_some_cases fs ign incl r.1 r heq
    refine ⟨hni, ?_⟩
    cases hc with
    | inl h => rw [h]; simp
    | inr h => rw [h.2.2]; simp

/-- Witness for C6: in the `test_get_file_stats` workspace the probe with
directories excluded emits the record of the existing file, which indeed
stats as a regular file. -/
theorem get_file_stats_semantics_witness :
    ("/ws/test_dir/test_file.txt", 1, 4) ∈
      _get_file_stats testDirFs testDirValue [] false ∧
    testDirFs.stat "/ws/test_dir/test_file.txt" =
      some (FSEntry.file 1 4) :=
  ⟨(get_file_stats_semantics testDirFs [] false testDirValue
      ("/ws/test_dir/test_file.txt", 1, 4)).1.mpr ⟨by decide, by decide⟩,
   (get_file_stats_semantics testDirFs [] false testDirValue
      ("/ws/test_dir/test_file.txt", 1, 4)).2.1 rfl
     ((get_file_stats_semantics testDirFs [] false testDirValue
      ("/ws/test_dir/test_file.txt", 1, 4)).1.mpr ⟨by decide, by decide⟩)⟩

/-- Claim C7: calling `add_task` on a graph after `close()` has been called
fails with an IllegalState error, and no task is registered (the graph is
returned unchanged). -/
theorem addTask_after_close_illegalState (g : Graph) (fn : String)
    (args : ArgList) (kwargs : ArgMap) (tps ips : List String) (pr : Int)
    (deps : List Nat) :
    addTask g.close fn args kwargs tps ips pr deps =
      (Except.error (TgError.illegalState
        "add_task called on a closed TaskGraph"), g.close) := by
  simp [addTask, Graph.close]

/-- Claim C9: the derived identity of an encapsulated op is equal for two
instances of the same class (same name and body) constructed with the same
arguments, and differs whenever the class name differs, the class is
redefined with a different body within a session, or the constructor
arguments differ. -/
theorem encapsulatedOp_identity :
    (∀ a b : EncapsulatedTaskOp, a.cls = b.cls → a.ctorArgs = b.ctorArgs →
      opName a = opName b) ∧
    (∀ a b : EncapsulatedTaskOp, a.cls.className ≠ b.cls.className →
      opName a ≠ opName b) ∧
    (∀ a b : EncapsulatedTaskOp, a.cls.body ≠ b.cls.body →
      opName a ≠ opName b) ∧
    (∀ a b : EncapsulatedTaskOp, a.ctorArgs ≠ b.ctorArgs →
      opName a ≠ opName b) := by
  refine ⟨?_, ?_, ?_, ?_⟩
  · intro a b h1 h2
    unfold opName
    rw [h1, h2]
  · exact fun a b hne heq => hne (congrArg (fun p => p.1) heq)
  · exact fun a b hne heq => hne (congrArg (fun p => p.2.1) heq)
  · exact fun a b hne heq => hne (congrArg (fun p => p.2.2) heq)

/-- Witness for C9: the `TestA`/`TestB` instances of
`test_encapsulatedtaskop` — equal identity for same class and args, fresh
identity for a different class name, a redefined body, and changed
constructor args. -/
theorem encapsulatedOp_identity_witness :
    opName ⟨⟨"TestA", "return x"⟩, ArgList.nil⟩ =
      opName ⟨⟨"TestA", "return x"⟩, ArgList.nil⟩ ∧
    opName ⟨⟨"TestA", "return x"⟩, ArgList.nil⟩ ≠
      opName ⟨⟨"TestB", "return x"⟩, ArgList.nil⟩ ∧
    opName ⟨⟨"TestA", "return x"⟩, ArgList.nil⟩ ≠
      opName ⟨⟨"TestA", "return x*x"⟩, ArgList.nil⟩ ∧
    opName ⟨⟨"TestA", "return x*x"⟩, ArgList.nil⟩ ≠
      opName ⟨⟨"TestA", "return x*x"⟩,
        ArgList.cons (ArgValue.num 1) ArgList.nil⟩ :=
  ⟨encapsulatedOp_identity.1 _ _ rfl rfl,
   encapsulatedOp_identity.2.1 _ _ (by decide),
   encapsulatedOp_identity.2.2.1 _ _ (by decide),
   encapsulatedOp_identity.2.2.2 _ _ (by simp)⟩

/-- Claim C8: in delayed-start mode, `join()` on an individual Task Record
before the graph is closed raises IllegalState with a message containing
"Task joined even though taskgraph has delayed"; after `close()` the
delayed task still runs to completion (`result_list = [1]`). -/
theorem taskJoin_delayed_illegalState (g : Graph) (tid : Nat) (w : World)
    (hd : g.delayedStart = true) (hc : g.closed = false) :
    (∃ msg, taskJoin g tid w = Except.error (TgError.illegalState msg) ∧
      hasSubstring msg "Task joined even though taskgraph has delayed") ∧
    taskJoin joinDelayedGraph.close 0 emptyWorld =
      Except.ok TaskState.complete ∧
    (runGraph joinDelayedGraph.close.tasks emptyWorld).world.sideLog = [1] := by
  refine ⟨?_, rfl, rfl⟩
  refine ⟨"Task joined even though taskgraph has delayed start mode and close has not been invoked",
    ?_, "", " start mode and close has not been invoked", by decide⟩
  simp [taskJoin, hd, hc]

/-- Witness for C8: the `test_join_delayed_execution_error` graph before
`close()`. -/
theorem taskJoin_delayed_illegalState_witness :
    (∃ msg, taskJoin joinDelayedGraph 0 emptyWorld =
        Except.error (TgError.illegalState msg) ∧
      hasSubstring msg "Task joined even though taskgraph has delayed") ∧
    taskJoin joinDelayedGraph.close 0 emptyWorld =
      Except.ok TaskState.complete ∧
    (runGraph joinDelayedGraph.close.tasks emptyWorld).world.sideLog = [1] :=
  taskJoin_delayed_illegalState joinDelayedGraph 0 emptyWorld rfl rfl

/-- Claim C10: Task `==` is reflexive; two tasks submitted to the same graph
with identical callable, args, kwargs and target path list compare equal
although they are distinct submissions (different ids); tasks differing in
args compare unequal. -/
theorem task_equality_spec :
    (∀ t : Task, t.taskEq t) ∧
    (∀ (g : Graph) (fn : String) (args : ArgList) (kwargs : ArgMap)
      (tps ips : List String) (pr : Int) (deps : List Nat),
      g.closed = false →
      (taskAt (addTask (addTask g fn args kwargs tps ips pr deps).2
          fn args kwargs tps ips pr deps).2.tasks g.tasks.length).id ≠
        (taskAt (addTask (addTask g fn args kwargs tps ips pr deps).2
          fn args kwargs tps ips pr deps).2.tasks (g.tasks.length + 1)).id ∧
      (taskAt (addTask (addTask g fn args kwargs tps ips pr deps).2
          fn args kwargs tps ips pr deps).2.tasks g.tasks.length).taskEq
        (taskAt (addTask (addTask g fn args kwargs tps ips pr deps).2
          fn args kwargs tps ips pr deps).2.tasks (g.tasks.length + 1))) ∧
    (∀ a b : Task, a.args ≠ b.args → ¬ a.taskEq b) := by
  refine ⟨fun t => ⟨rfl, rfl, rfl, rfl, rfl⟩, ?_, ?_⟩
  · intro g fn args kwargs tps ips pr deps hc
    have h2 : (addTask (addTask g fn args kwargs tps ips pr deps).2
        fn args kwargs tps ips pr deps).2.tasks =
        g.tasks ++ mkTask g.tasks.length fn args kwargs tps ips pr deps ::
          [mkTask (g.tasks.length + 1) fn args kwargs tps ips pr deps] := by
      simp [addTask, hc]
    have e1 := taskAt_append_length g.tasks
      (mkTask g.tasks.length fn args kwargs tps ips pr deps)
      [mkTask (g.tasks.length + 1) fn args kwargs tps ips pr deps]
    have e2 := taskAt_append_length
      (g.tasks ++ [mkTask g.tasks.length fn args kwargs tps ips pr deps])
      (mkTask (g.tasks.length + 1) fn args kwargs tps ips pr deps) []
    have hlen : (g.tasks ++
        [mkTask g.tasks.length fn args kwargs tps ips pr deps]).length =
        g.tasks.length + 1 := by simp
    rw [hlen] at e2
    simp only [List.append_assoc, List.cons_append, List.nil_append] at e1 e2
    rw [h2, e1, e2]
    exact ⟨by simp [mkTask], rfl, rfl, rfl, rfl, rfl⟩
  · rintro a b hne ⟨_, ha, _⟩
    exact hne ha

/-- Witness for C10: two identical and one differing submission on a fresh
graph, as in `test_task_equality`. -/
theorem task_equality_spec_witness :
    singleListTask.taskEq singleListTask ∧
    ((taskAt (addTask (addTask (newGraph false) "_create_list_on_disk"
        ArgList.nil ArgMap.nil [] [] 0 []).2 "_create_list_on_disk"
        ArgList.nil ArgMap.nil [] [] 0 []).2.tasks 0).id ≠
      (taskAt (addTask (addTask (newGraph false) "_create_list_on_disk"
        ArgList.nil ArgMap.nil [] [] 0 []).2 "_create_list_on_disk"
        ArgList.nil ArgMap.nil [] [] 0 []).2.tasks 1).id) ∧
    ¬ singleListTask.taskEq singleListTaskBumped :=
  ⟨task_equality_spec.1 singleListTask,
   (task_equality_spec.2.1 (newGraph false) "_create_list_on_disk"
     ArgList.nil ArgMap.nil [] [] 0 [] rfl).1,
   task_equality_spec.2.2 _ _ (by decide)⟩

end TaskGraph
